import Mathlib

/-!
Verification of the shazam-reimplementation audio fingerprinting engine.

The definitions below are shallow embeddings of the Python source:
`src/fingerprinting.py`, `src/database.py`, `src/core/matcher.py`,
`src/core/utils.py`, `src/config.py`, `src/backend/service.py`.
Python integers become `Int` (or `Nat` for array indices), Python floats
that only undergo exact arithmetic become `ℚ`, dictionaries become
insertion-ordered association lists (matching CPython's ordered dicts),
and raised exceptions become `Except` values.
-/

namespace Shazam

/-- A fingerprint `(f1, f2, dt, t1)` as produced by `extract_fingerprints`. -/
abbrev FP := Int × Int × Int × Int

/-- A hash key `(f1, f2, dt)` (`FingerprintHash` in `src/database.py`). -/
abbrev HashKey := Int × Int × Int

/-- A database entry `(song_name, time_offset)` (`DatabaseEntry` in `src/database.py`). -/
abbrev DBEntry := String × Int

/-- The multi-song database: hash key -> list of entries, as an insertion
ordered association list (`Database` in `src/database.py`). -/
abbrev Database := List (HashKey × List DBEntry)

/-- The hash key of a fingerprint: `hash_key = (f1, f2, dt)`. -/
def hashKey (fp : FP) : HashKey := (fp.1, fp.2.1, fp.2.2.1)

/-- The anchor time `t1` of a fingerprint. -/
def anchorTime (fp : FP) : Int := fp.2.2.2

/-- Dictionary lookup: `db[hash_key]` guarded by `hash_key in db`. -/
def dbLookup (db : Database) (k : HashKey) : Option (List DBEntry) :=
  match db with
  | [] => none
  | (k', es) :: rest => if k' = k then some es else dbLookup rest k

/-! ## `src/core/utils.py` -/

/-- `confidence_label` from `src/core/utils.py`, the literal if-chain. -/
def confidence_label (score : Int) : String :=
  if score < 200 then "No match"
  else if score < 1000 then "Low confidence"
  else if score < 3000 then "Medium confidence"
  else "High confidence"

/-- Zero padding used by the f-string `f"{minutes}:{secs:02d}"`. -/
def zeroPad2 (n : Nat) : String :=
  if n < 10 then "0" ++ toString n else toString n

/-- `seconds_to_mmss` from `src/core/utils.py`: `int(abs(seconds))`
truncates the non-negative absolute value, i.e. takes its floor. -/
def seconds_to_mmss (seconds : ℚ) : String :=
  let s : Nat := (Rat.floor |seconds|).toNat
  toString (s / 60) ++ ":" ++ zeroPad2 (s % 60)

/-- The result dictionary produced by `interpret_match` and by
`AudioFingerprintingService.recognize_audio`; a `none` field models an
absent dictionary key. -/
structure ResultDict where
  matched : Bool
  song : Option String
  position_in_song : Option String
  confidence : Option String
  raw_score : Option Int
  message : Option String
deriving DecidableEq, Repr

/-- `interpret_match` from `src/core/utils.py`. -/
def interpret_match (song_name : Option String) (best_offset : Option Int)
    (score : Int) (hop_length : Int) (sr : Int) : ResultDict :=
  let confidence := confidence_label score
  match song_name, best_offset with
  | some s, some o =>
      if confidence = "No match" then
        { matched := false, song := none, position_in_song := none,
          confidence := none, raw_score := some score,
          message := some "No matching song detected" }
      else
        { matched := true, song := some s,
          position_in_song := some (seconds_to_mmss ((o : ℚ) * (hop_length : ℚ) / (sr : ℚ))),
          confidence := some confidence, raw_score := some score,
          message := none }
  | _, _ =>
      { matched := false, song := none, position_in_song := none,
        confidence := none, raw_score := some score,
        message := some "No matching song detected" }

/-! ## `extract_fingerprints_with_snr_info` (`src/fingerprinting.py`)

The function body binds its eleven parameters plus the two local names
`fingerprints` and `snr_db`, then executes `return fingerprints,
snr_db_actual`.  We model the local name environment reached at the
return statement and CPython's name resolution for the names the return
expression reads. -/

/-- The names bound in the local scope of `extract_fingerprints_with_snr_info`
when control reaches its return statement: the parameters and the two
assigned locals. -/
def snrInfoBoundNames : List String :=
  ["y", "sr", "n_fft", "hop_ratio", "freq_neighborhood", "time_neighborhood",
   "amplitude_threshold", "num_bands", "fanout", "dt_min", "dt_max_seconds",
   "fingerprints", "snr_db"]

/-- CPython name resolution: an unbound name raises `NameError`. -/
def lookupLocalName (env : List String) (n : String) : Except String String :=
  if n ∈ env then .ok n else .error ("NameError: name '" ++ n ++ "' is not defined")

/-- Evaluation of the tuple `(fingerprints, snr_db_actual)` in the return
statement of `extract_fingerprints_with_snr_info`: CPython evaluates the
element expressions left to right. -/
def snrInfoReturnEval : Except String (List String) :=
  ["fingerprints", "snr_db_actual"].mapM (lookupLocalName snrInfoBoundNames)

/-! ## `src/config.py` -/

/-- The configuration record; the keys of `DEFAULT_CONFIG`. -/
structure Config where
  sr : Int
  n_fft : Int
  hop_ratio : Int
  freq_neighborhood : Int
  time_neighborhood : Int
  amplitude_threshold : ℚ
  num_bands : Int
  fanout : Int
  dt_min : Int
  dt_max_seconds : ℚ
deriving DecidableEq, Repr

/-- `DEFAULT_CONFIG` from `src/config.py`. -/
def DEFAULT_CONFIG : Config :=
  { sr := 44100, n_fft := 2048, hop_ratio := 4, freq_neighborhood := 20,
    time_neighborhood := 20, amplitude_threshold := -35, num_bands := 6,
    fanout := 10, dt_min := 2, dt_max_seconds := 2 }

/-- `validate_config` from `src/config.py`: the literal chain of range
checks, a raised `ValueError` modelled as `.error`.  For a positive
`n_fft`, Python's `n_fft & (n_fft - 1)` equals the `Nat` bitwise-and of
the corresponding natural numbers; the short-circuiting `or` evaluates
the bit test only when `n_fft > 0`. -/
def validate_config (c : Config) : Except String Bool :=
  if c.sr ≤ 0 then .error "sr must be positive"
  else if c.n_fft ≤ 0 ∨ c.n_fft.toNat &&& (c.n_fft.toNat - 1) ≠ 0 then
    .error "n_fft must be a positive power of 2"
  else if c.hop_ratio ≤ 0 then .error "hop_ratio must be positive"
  else if c.num_bands ≤ 0 then .error "num_bands must be positive"
  else if c.fanout ≤ 0 then .error "fanout must be positive"
  else if c.dt_min < 0 then .error "dt_min must be non-negative"
  else if c.dt_max_seconds ≤ 0 then .error "dt_max_seconds must be positive"
  else .ok true

/-! ## Peak extraction (`src/fingerprinting.py`, lines 82-84)

`np.where(peaks)` returns the coordinates of the true cells of the
boolean peak mask in row-major order: the frequency index (the row)
varies slowest.  `list(zip(time_idx, freq_idx))` turns them into `(t, f)`
pairs, and `peak_list.sort(key=lambda x: x[0])` is a stable sort on the
time component alone. -/

/-- The `(t, f)` pairs of one mask row (frequency bin `f`), times in
ascending order starting at column `t`. -/
def rowPeaksAux (f : Nat) (t : Nat) : List Bool → List (Nat × Nat)
  | [] => []
  | b :: bs => (if b then [(t, f)] else []) ++ rowPeaksAux f (t + 1) bs

/-- Rows `f, f+1, ...` of the mask, row-major. -/
def peakCoordsAux (f : Nat) : List (List Bool) → List (Nat × Nat)
  | [] => []
  | row :: rest => rowPeaksAux f 0 row ++ peakCoordsAux (f + 1) rest

/-- `list(zip(time_idx, freq_idx))` for `np.where` on the boolean mask. -/
def peakCoords (mask : List (List Bool)) : List (Nat × Nat) :=
  peakCoordsAux 0 mask

/-- One step of a stable insertion sort on the time component: the
element being inserted comes later in the original list than everything
already sorted, so it is placed after strictly smaller keys and before
equal ones. -/
def insertPeak (x : Nat × Nat) : List (Nat × Nat) → List (Nat × Nat)
  | [] => [x]
  | y :: ys => if x.1 ≤ y.1 then x :: y :: ys else y :: insertPeak x ys

/-- `peak_list.sort(key=lambda x: x[0])`: a stable sort by `t`.  CPython's
sort is stable, and a stable sort by a fixed key is unique, so stable
insertion sort is an exact model. -/
def sortPeaks : List (Nat × Nat) → List (Nat × Nat)
  | [] => []
  | x :: xs => insertPeak x (sortPeaks xs)

/-! ## Fingerprint pairing (`src/fingerprinting.py`, lines 86-109) -/

/-- The inner target loop for one anchor `(t1, f1)`: `continue` on
`dt < dt_min`, `break` on `dt > dt_max`, emit and `break` once `count`
reaches `fanout`. -/
def scanTargets (dt_min dt_max : Int) (fanout : Nat) (t1 f1 : Nat) :
    List (Nat × Nat) → Nat → List FP
  | [], _ => []
  | (t2, f2) :: rest, count =>
      let dt : Int := (t2 : Int) - (t1 : Int)
      if dt < dt_min then scanTargets dt_min dt_max fanout t1 f1 rest count
      else if dt_max < dt then []
      else if fanout ≤ count + 1 then [((f1 : Int), (f2 : Int), dt, (t1 : Int))]
      else ((f1 : Int), (f2 : Int), dt, (t1 : Int)) ::
        scanTargets dt_min dt_max fanout t1 f1 rest (count + 1)

/-- The outer anchor loop: anchor `i` scans the peaks after position `i`. -/
def generateFingerprints (dt_min dt_max : Int) (fanout : Nat) :
    List (Nat × Nat) → List FP
  | [] => []
  | (t1, f1) :: rest =>
      scanTargets dt_min dt_max fanout t1 f1 rest 0 ++
        generateFingerprints dt_min dt_max fanout rest

/-- The fingerprints emitted with the `i`-th peak-list entry as anchor. -/
def anchorBlock (dt_min dt_max : Int) (fanout : Nat)
    (l : List (Nat × Nat)) (i : Nat) : List FP :=
  match l.drop i with
  | [] => []
  | (t1, f1) :: rest => scanTargets dt_min dt_max fanout t1 f1 rest 0

/-- `dt_max = int(dt_max_seconds * sr / hop_length)` with
`hop_length = n_fft // hop_ratio`; for a positive value `int` truncation
is the floor. -/
def dtMaxFrames (sr n_fft hop_ratio : Nat) (dt_max_seconds : ℚ) : Int :=
  Rat.floor (dt_max_seconds * (sr : ℚ) / ((n_fft / hop_ratio : Nat) : ℚ))

/-- `extract_fingerprints` from the boolean peak mask on: coordinate
extraction, the stable sort by time, and the anchor-target pairing.  The
mask stands for the array `peaks` computed from the spectrogram on lines
63-79 of `src/fingerprinting.py`. -/
def extractFingerprintsFromPeaks (sr n_fft hop_ratio : Nat) (fanout : Nat)
    (dt_min : Int) (dt_max_seconds : ℚ) (mask : List (List Bool)) : List FP :=
  generateFingerprints dt_min (dtMaxFrames sr n_fft hop_ratio dt_max_seconds)
    fanout (sortPeaks (peakCoords mask))

/-! ## `src/database.py` -/

/-- Per-song metadata; `duration_seconds` is added later by the service
layer, so it starts out absent. -/
structure SongMeta where
  num_fingerprints : Nat
  duration_seconds : Option ℚ
deriving DecidableEq, Repr

/-- `db[hash_key].append(entry)` on a `defaultdict(list)`: appends to the
bucket of the first matching key, or creates the key at the end. -/
def appendEntry (db : Database) (k : HashKey) (e : DBEntry) : Database :=
  match db with
  | [] => [(k, [e])]
  | (k', es) :: rest =>
      if k' = k then (k', es ++ [e]) :: rest else (k', es) :: appendEntry rest k e

/-- The inner loop of `build_song_database` for one song. -/
def addSongFps (db : Database) (song : String) : List FP → Database
  | [] => db
  | fp :: rest => addSongFps (appendEntry db (hashKey fp) (song, anchorTime fp)) song rest

/-- The outer loop of `build_song_database`. -/
def buildSongDatabaseAux (acc : Database × List (String × SongMeta)) :
    List (String × List FP) → Database × List (String × SongMeta)
  | [] => acc
  | (song, fps) :: rest =>
      buildSongDatabaseAux
        (addSongFps acc.1 song fps,
         acc.2 ++ [(song, { num_fingerprints := fps.length, duration_seconds := none })])
        rest

/-- `build_song_database` from `src/database.py`. -/
def build_song_database (songs : List (String × List FP)) :
    Database × List (String × SongMeta) :=
  buildSongDatabaseAux ([], []) songs

/-! ## `src/core/matcher.py` (`query_multi_song`) -/

/-- Key of the vote dictionary: a `(song_name, offset)` pair. -/
abbrev VoteKey := String × Int

/-- `votes[key] += 1` on a `defaultdict(int)`: a key already present is
incremented in place, a new key is appended at the end, exactly the
insertion-order behaviour of a CPython dict. -/
def bump (votes : List (VoteKey × Nat)) (k : VoteKey) : List (VoteKey × Nat) :=
  match votes with
  | [] => [(k, 1)]
  | (k', c) :: rest =>
      if k' = k then (k', c + 1) :: rest else (k', c) :: bump rest k

/-- The votes cast by one query fingerprint, in bucket order. -/
def entryVotes (db : Database) (fp : FP) : List VoteKey :=
  match dbLookup db (hashKey fp) with
  | none => []
  | some es => es.map (fun e => (e.1, e.2 - fp.2.2.2))

/-- The full sequence of votes cast by the nested loops of
`query_multi_song`, in iteration order. -/
def voteList (Q : List FP) (db : Database) : List VoteKey :=
  match Q with
  | [] => []
  | fp :: rest => entryVotes db fp ++ voteList rest db

/-- The state of the `votes` dictionary after the nested loops: the
sequence of `+= 1` updates applied in iteration order. -/
def castVotes (Q : List FP) (db : Database) : List (VoteKey × Nat) :=
  (voteList Q db).foldl bump []

/-- `max(votes, key=votes.get)`: scans the dict entries in insertion
order keeping the first entry with the strictly largest count. -/
def maxVoteStep (best p : VoteKey × Nat) : VoteKey × Nat :=
  if best.2 < p.2 then p else best

/-- `query_multi_song` from `src/core/matcher.py`. -/
def query_multi_song (Q : List FP) (db : Database) :
    Option String × Option Int × Nat :=
  match castVotes Q db with
  | [] => (none, none, 0)
  | v :: vs =>
      let best := vs.foldl maxVoteStep v
      (some best.1.1, some best.1.2, best.2)

/-- The number of votes cast for a given `(song, offset)` pair. -/
def countKey : List VoteKey → VoteKey → Nat
  | [], _ => 0
  | x :: xs, k => (if x = k then 1 else 0) + countKey xs k

/-- The position of the first vote for a given pair (the length of the
list when the pair never receives a vote). -/
def firstIdx : List VoteKey → VoteKey → Nat
  | [], _ => 0
  | x :: xs, k => if x = k then 0 else firstIdx xs k + 1

/-- Count recorded in the vote dictionary for a key (0 if absent). -/
def lookupCount : List (VoteKey × Nat) → VoteKey → Nat
  | [], _ => 0
  | (k', c) :: rest, k => if k' = k then c else lookupCount rest k

/-! ## `src/backend/service.py` -/

/-- The in-memory state of `AudioFingerprintingService`. -/
structure ServiceState where
  db : Database
  metadata : List (String × SongMeta)
  config : Config
deriving DecidableEq, Repr

/-- `self.metadata[song_name] = value`: replace the value of an existing
key in place, or append a new key. -/
def setMeta (m : List (String × SongMeta)) (k : String) (v : SongMeta) :
    List (String × SongMeta) :=
  match m with
  | [] => [(k, v)]
  | (k', v') :: rest =>
      if k' = k then (k', v) :: rest else (k', v') :: setMeta rest k v

/-- `self.db[hash_key].extend(entries)` / `self.db[hash_key] = entries`:
the bucket-merge loop of `add_song`. -/
def extendBucket (db : Database) (k : HashKey) (es : List DBEntry) : Database :=
  match db with
  | [] => [(k, es)]
  | (k', l) :: rest =>
      if k' = k then (k', l ++ es) :: rest else (k', l) :: extendBucket rest k es

/-- `for hash_key, entries in new_db.items(): ...` in `add_song`. -/
def mergeDb (db newDb : Database) : Database :=
  newDb.foldl (fun d p => extendBucket d p.1 p.2) db

/-- The state update performed by `AudioFingerprintingService.add_song`
once the fingerprints are extracted: build the one-song database, merge
its buckets into the live database, and overwrite
`self.metadata[song_name]` with the new metadata (whose
`num_fingerprints` is the length of the fingerprint list) plus the
`duration_seconds` field.  No existence check is performed. -/
def add_song_update (st : ServiceState) (song : String) (fps : List FP)
    (duration : ℚ) : ServiceState :=
  let new_db := (build_song_database [(song, fps)]).1
  { st with
    db := mergeDb st.db new_db,
    metadata := setMeta st.metadata song
      { num_fingerprints := fps.length, duration_seconds := some duration } }

/-- The datum pickled by `save_database`: only the keys `'db'` and
`'metadata'` — no version tag and no configuration. -/
structure SavedData where
  db : Database
  metadata : List (String × SongMeta)
deriving DecidableEq, Repr

/-- `save_database` from `src/backend/service.py` (the pure payload). -/
def save_database (st : ServiceState) : SavedData :=
  { db := st.db, metadata := st.metadata }

/-- `load_database` from `src/backend/service.py` once the file has been
read: install `data.get('db', {})` and `data.get('metadata', {})` and
return `True`.  The current configuration is neither inspected nor
compared. -/
def load_database (st : ServiceState) (data : SavedData) : ServiceState × Bool :=
  ({ st with db := data.db, metadata := data.metadata }, true)

/-- `AudioFingerprintingService.recognize_audio`: the whole pipeline runs
inside `try`, and `except Exception` returns a dictionary with only the
keys `matched` and `message`.  The `pipeline` argument is `.ok` with the
`query_multi_song` triple when no exception is raised, and `.error` with
the exception text otherwise. -/
def recognize_audio_service (pipeline : Except String (Option String × Option Int × Int))
    (hop_length sr : Int) : ResultDict :=
  match pipeline with
  | .ok (s, o, c) => interpret_match s o c hop_length sr
  | .error e =>
      { matched := false, song := none, position_in_song := none,
        confidence := none, raw_score := none,
        message := some ("Error during recognition: " ++ e) }

/-- The empty initial service state (fresh facade, default config). -/
def emptyServiceState : ServiceState :=
  { db := [], metadata := [], config := DEFAULT_CONFIG }

/-- A configuration violating three constraints of the spec's table:
`hop_ratio = 3` does not divide `n_fft = 2048`, `freq_neighborhood = 0`
is below 1, and `num_bands = 2000` exceeds `n_fft / 2 = 1024`. -/
def badConfig : Config :=
  { DEFAULT_CONFIG with hop_ratio := 3, freq_neighborhood := 0, num_bands := 2000 }

/-- The contents of the `votes` dictionary described by the sequence of
votes cast so far: each entry's count is the number of votes for its
key, every voted key is present, and the entries are ordered by the
position of their first vote. -/
def TallyInv (seen : List VoteKey) (votes : List (VoteKey × Nat)) : Prop :=
  (∀ p ∈ votes, p.2 = countKey seen p.1 ∧ p.1 ∈ seen) ∧
  (∀ k ∈ seen, ∃ p ∈ votes, p.1 = k) ∧
  (votes.map Prod.fst).Pairwise (fun a b => firstIdx seen a < firstIdx seen b)

/-! ## Helper lemmas -/

/-- The bit test of `validate_config`: for a positive natural number,
`m &&& (m - 1) = 0` holds exactly for the powers of two. -/
theorem land_pred_eq_zero_iff {m : Nat} (hm : 0 < m) :
    m &&& (m - 1) = 0 ↔ ∃ k : Nat, m = 2 ^ k := by
  constructor
  · intro h
    induction m using Nat.strong_induction_on with
    | _ m ih =>
      have hbit : ∀ i, (m.testBit i && (m - 1).testBit i) = false := by
        intro i
        have hc := congrArg (fun x => Nat.testBit x i) h
        simpa [Nat.testBit_land] using hc
      rcases Nat.even_or_odd m with he | ho
      · obtain ⟨n, hn⟩ := he
        have hn2 : m = 2 * n := by omega
        have hnpos : 0 < n := by omega
        have hdiv : m / 2 = n := by omega
        have hdiv' : (m - 1) / 2 = n - 1 := by omega
        have hland : n &&& (n - 1) = 0 := by
          apply Nat.eq_of_testBit_eq
          intro i
          have hb := hbit (i + 1)
          rw [Nat.testBit_succ, Nat.testBit_succ, hdiv, hdiv'] at hb
          simp [Nat.testBit_land, hb]
        obtain ⟨k, hk⟩ := ih n (by omega) hnpos hland
        exact ⟨k + 1, by rw [hn2, hk]; ring⟩
      · by_cases h1 : m = 1
        · exact ⟨0, by simp [h1]⟩
        · exfalso
          obtain ⟨j, hj⟩ := ho
          have hhalf : 0 < m / 2 := by omega
          obtain ⟨i, hi⟩ := Nat.ne_zero_implies_bit_true (Nat.pos_iff_ne_zero.mp hhalf)
          have hdiv' : (m - 1) / 2 = m / 2 := by omega
          have hb := hbit (i + 1)
          rw [Nat.testBit_succ, Nat.testBit_succ, hdiv'] at hb
          rw [hi] at hb
          simp at hb
  · rintro ⟨k, rfl⟩
    apply Nat.eq_of_testBit_eq
    intro i
    rw [Nat.testBit_land, Nat.zero_testBit, Nat.testBit_two_pow, Nat.testBit_two_pow_sub_one]
    by_cases hki : k = i
    · subst hki; simp
    · simp [hki]

theorem mem_insertPeak {z x : Nat × Nat} {l : List (Nat × Nat)} :
    z ∈ insertPeak x l ↔ z = x ∨ z ∈ l := by
  induction l with
  | nil => simp [insertPeak]
  | cons y ys ih =>
      unfold insertPeak
      split_ifs with h
      · simp [or_assoc]
      · simp only [List.mem_cons, ih]
        tauto

theorem mem_sortPeaks {z : Nat × Nat} {l : List (Nat × Nat)} :
    z ∈ sortPeaks l ↔ z ∈ l := by
  induction l with
  | nil => simp [sortPeaks]
  | cons x xs ih => simp [sortPeaks, mem_insertPeak, ih]

theorem insertPeak_pairwise_le {x : Nat × Nat} {l : List (Nat × Nat)}
    (h : l.Pairwise (fun a b => a.1 ≤ b.1)) :
    (insertPeak x l).Pairwise (fun a b => a.1 ≤ b.1) := by
  induction l with
  | nil => simp [insertPeak]
  | cons y ys ih =>
      rw [List.pairwise_cons] at h
      unfold insertPeak
      split_ifs with hxy
      · refine List.Pairwise.cons ?_ (List.Pairwise.cons h.1 h.2)
        intro z hz
        rcases List.mem_cons.mp hz with rfl | hz'
        · exact hxy
        · exact le_trans hxy (h.1 z hz')
      · refine List.Pairwise.cons ?_ (ih h.2)
        intro z hz
        rcases mem_insertPeak.mp hz with rfl | hz'
        · omega
        · exact h.1 z hz'

theorem sortPeaks_pairwise_le (l : List (Nat × Nat)) :
    (sortPeaks l).Pairwise (fun a b => a.1 ≤ b.1) := by
  induction l with
  | nil => simp [sortPeaks]
  | cons x xs ih => exact insertPeak_pairwise_le ih

theorem insertPeak_pairwise_stable {x : Nat × Nat} {l : List (Nat × Nat)}
    (hx : ∀ y ∈ l, x.1 = y.1 → x.2 ≤ y.2)
    (h : l.Pairwise (fun a b => a.1 = b.1 → a.2 ≤ b.2)) :
    (insertPeak x l).Pairwise (fun a b => a.1 = b.1 → a.2 ≤ b.2) := by
  induction l with
  | nil => simp [insertPeak]
  | cons y ys ih =>
      rw [List.pairwise_cons] at h
      unfold insertPeak
      split_ifs with hxy
      · refine List.Pairwise.cons ?_ (List.Pairwise.cons h.1 h.2)
        intro z hz
        exact hx z hz
      · refine List.Pairwise.cons ?_ (ih (fun y' hy' => hx y' (List.mem_cons_of_mem _ hy')) h.2)
        intro z hz heq
        rcases mem_insertPeak.mp hz with rfl | hz'
        · omega
        · exact h.1 z hz' heq

theorem sortPeaks_pairwise_stable {l : List (Nat × Nat)}
    (h : l.Pairwise (fun a b => a.1 = b.1 → a.2 ≤ b.2)) :
    (sortPeaks l).Pairwise (fun a b => a.1 = b.1 → a.2 ≤ b.2) := by
  induction l with
  | nil => simp [sortPeaks]
  | cons x xs ih =>
      rw [List.pairwise_cons] at h
      refine insertPeak_pairwise_stable ?_ (ih h.2)
      intro y hy
      exact h.1 y (mem_sortPeaks.mp hy)

theorem rowPeaksAux_snd {f t : Nat} {row : List Bool} :
    ∀ p ∈ rowPeaksAux f t row, p.2 = f := by
  induction row generalizing t with
  | nil => simp [rowPeaksAux]
  | cons b bs ih =>
      intro p hp
      unfold rowPeaksAux at hp
      rcases List.mem_append.mp hp with h1 | h2
      · rcases b with _ | _ <;> simp_all
      · exact ih p h2

theorem peakCoordsAux_snd_ge {f : Nat} {rows : List (List Bool)} :
    ∀ p ∈ peakCoordsAux f rows, f ≤ p.2 := by
  induction rows generalizing f with
  | nil => simp [peakCoordsAux]
  | cons row rest ih =>
      intro p hp
      unfold peakCoordsAux at hp
      rcases List.mem_append.mp hp with h1 | h2
      · exact (rowPeaksAux_snd p h1).ge
      · exact le_trans (Nat.le_succ f) (ih p h2)

theorem pairwise_snd_of_const {f : Nat} {l : List (Nat × Nat)}
    (h : ∀ p ∈ l, p.2 = f) : l.Pairwise (fun a b => a.2 ≤ b.2) := by
  induction l with
  | nil => simp
  | cons x xs ih =>
      refine List.Pairwise.cons ?_ (ih (fun p hp => h p (List.mem_cons_of_mem _ hp)))
      intro z hz
      rw [h x (List.mem_cons_self _ _), h z (List.mem_cons_of_mem _ hz)]

theorem peakCoordsAux_pairwise_snd {f : Nat} {rows : List (List Bool)} :
    (peakCoordsAux f rows).Pairwise (fun a b => a.2 ≤ b.2) := by
  induction rows generalizing f with
  | nil => simp [peakCoordsAux]
  | cons row rest ih =>
      unfold peakCoordsAux
      rw [List.pairwise_append]
      refine ⟨pairwise_snd_of_const (fun p hp => rowPeaksAux_snd p hp), ih, ?_⟩
      intro a ha b hb
      have h1 := rowPeaksAux_snd a ha
      have h2 := peakCoordsAux_snd_ge b hb
      omega

theorem scanTargets_mem {dt_min dt_max : Int} {fanout : Nat} {t1 f1 : Nat} :
    ∀ {rest : List (Nat × Nat)} {count : Nat} {fp : FP},
      fp ∈ scanTargets dt_min dt_max fanout t1 f1 rest count →
      (dt_min ≤ fp.2.2.1 ∧ fp.2.2.1 ≤ dt_max) ∧
      fp.1 = (f1 : Int) ∧ fp.2.2.2 = (t1 : Int) := by
  intro rest
  induction rest with
  | nil => intro count fp hfp; simp [scanTargets] at hfp
  | cons p rest ih =>
      intro count fp hfp
      rcases p with ⟨t2, f2⟩
      simp only [scanTargets] at hfp
      split_ifs at hfp with h1 h2 h3
      · exact ih hfp
      · simp at hfp
      · simp at hfp
        subst hfp
        refine ⟨⟨?_, ?_⟩, rfl, rfl⟩
        · show dt_min ≤ (t2 : Int) - (t1 : Int)
          omega
        · show (t2 : Int) - (t1 : Int) ≤ dt_max
          omega
      · rcases List.mem_cons.mp hfp with rfl | hfp'
        · refine ⟨⟨?_, ?_⟩, rfl, rfl⟩
          · show dt_min ≤ (t2 : Int) - (t1 : Int)
            omega
          · show (t2 : Int) - (t1 : Int) ≤ dt_max
            omega
        · exact ih hfp'

theorem scanTargets_length_le {dt_min dt_max : Int} {t1 f1 : Nat} :
    ∀ {rest : List (Nat × Nat)} {fanout count : Nat}, count < fanout →
      (scanTargets dt_min dt_max fanout t1 f1 rest count).length ≤ fanout - count := by
  intro rest
  induction rest with
  | nil => intro fanout count h; simp [scanTargets]
  | cons p rest ih =>
      intro fanout count h
      rcases p with ⟨t2, f2⟩
      simp only [scanTargets]
      split_ifs with h1 h2 h3
      · exact ih h
      · simp
      · simp; omega
      · have hrec := @ih fanout (count + 1) (by omega)
        simp only [List.length_cons]
        omega

theorem generateFingerprints_mem {dt_min dt_max : Int} {fanout : Nat} :
    ∀ {l : List (Nat × Nat)} {fp : FP},
      fp ∈ generateFingerprints dt_min dt_max fanout l →
      dt_min ≤ fp.2.2.1 ∧ fp.2.2.1 ≤ dt_max := by
  intro l
  induction l with
  | nil => intro fp hfp; simp [generateFingerprints] at hfp
  | cons p rest ih =>
      intro fp hfp
      rcases p with ⟨t1, f1⟩
      simp only [generateFingerprints] at hfp
      rcases List.mem_append.mp hfp with h1 | h2
      · exact (scanTargets_mem h1).1
      · exact ih h2

theorem dbLookup_appendEntry {db : Database} {k' k : HashKey} {e : DBEntry}
    {es : List DBEntry} (h : dbLookup (appendEntry db k' e) k = some es) :
    k = k' ∨ ∃ es', dbLookup db k = some es' := by
  induction db with
  | nil =>
      simp only [appendEntry, dbLookup] at h
      split_ifs at h with h1
      exact Or.inl h1.symm
  | cons p rest ih =>
      rcases p with ⟨k0, es0⟩
      simp only [appendEntry] at h
      split_ifs at h with h1
      · simp only [dbLookup] at h
        split_ifs at h with h2
        · exact Or.inr ⟨es0, by simp [dbLookup, h2]⟩
        · exact Or.inr ⟨es, by simp [dbLookup, h2, h]⟩
      · simp only [dbLookup] at h
        split_ifs at h with h2
        · exact Or.inr ⟨es0, by simp [dbLookup, h2]⟩
        · rcases ih h with hk | ⟨es', hes'⟩
          · exact Or.inl hk
          · exact Or.inr ⟨es', by simp [dbLookup, h2, hes']⟩

theorem addSongFps_keys {song : String} :
    ∀ {fps : List FP} {db : Database} {k : HashKey} {es : List DBEntry},
      dbLookup (addSongFps db song fps) k = some es →
      (∃ es', dbLookup db k = some es') ∨ ∃ fp ∈ fps, hashKey fp = k := by
  intro fps
  induction fps with
  | nil => intro db k es h; exact Or.inl ⟨es, h⟩
  | cons fp rest ih =>
      intro db k es h
      rcases ih h with ⟨es', hes'⟩ | ⟨fp', hfp', hk⟩
      · rcases dbLookup_appendEntry hes' with hk | hdb
        · exact Or.inr ⟨fp, List.mem_cons_self _ _, hk.symm⟩
        · exact Or.inl hdb
      · exact Or.inr ⟨fp', List.mem_cons_of_mem _ hfp', hk⟩

theorem range_succ_flatMap {α : Type} (n : Nat) (F : Nat → List α) :
    (List.range (n + 1)).flatMap F = F 0 ++ (List.range n).flatMap (fun i => F (i + 1)) := by
  rw [List.range_succ_eq_map, List.flatMap_cons, List.flatMap_map]

theorem anchorBlock_succ (dt_min dt_max : Int) (fanout : Nat) (p : Nat × Nat)
    (rest : List (Nat × Nat)) (i : Nat) :
    anchorBlock dt_min dt_max fanout (p :: rest) (i + 1)
      = anchorBlock dt_min dt_max fanout rest i := by
  simp [anchorBlock, List.drop_succ_cons]

theorem generateFingerprints_eq_flatMap (dt_min dt_max : Int) (fanout : Nat) :
    ∀ l : List (Nat × Nat),
      generateFingerprints dt_min dt_max fanout l
        = (List.range l.length).flatMap (anchorBlock dt_min dt_max fanout l) := by
  intro l
  induction l with
  | nil => simp [generateFingerprints]
  | cons p rest ih =>
      rcases p with ⟨t1, f1⟩
      rw [List.length_cons, range_succ_flatMap]
      have hsucc : (fun i => anchorBlock dt_min dt_max fanout ((t1, f1) :: rest) (i + 1))
          = anchorBlock dt_min dt_max fanout rest :=
        funext fun i => anchorBlock_succ dt_min dt_max fanout (t1, f1) rest i
      rw [hsucc, ← ih]
      rfl

theorem anchorBlock_length_le {dt_min dt_max : Int} {fanout : Nat}
    {l : List (Nat × Nat)} (h : 1 ≤ fanout) (i : Nat) :
    (anchorBlock dt_min dt_max fanout l i).length ≤ fanout := by
  rcases hd : l.drop i with _ | ⟨⟨t1, f1⟩, rest⟩
  · simp [anchorBlock, hd]
  · simp only [anchorBlock, hd]
    have hb := @scanTargets_length_le dt_min dt_max t1 f1 rest fanout 0 (by omega)
    simpa using hb

theorem anchorBlock_anchor {dt_min dt_max : Int} {fanout : Nat}
    {l : List (Nat × Nat)} {i t1 f1 : Nat} (hget : l[i]? = some (t1, f1)) :
    ∀ fp ∈ anchorBlock dt_min dt_max fanout l i,
      fp.1 = (f1 : Int) ∧ fp.2.2.2 = (t1 : Int) := by
  obtain ⟨hlt, hv⟩ := List.getElem?_eq_some_iff.mp hget
  have hd : l.drop i = (t1, f1) :: l.drop (i + 1) := by
    rw [List.drop_eq_getElem_cons hlt, hv]
  intro fp hfp
  unfold anchorBlock at hfp
  rw [hd] at hfp
  exact (scanTargets_mem hfp).2

theorem bump_not_mem {votes : List (VoteKey × Nat)} {k : VoteKey}
    (h : ∀ p ∈ votes, p.1 ≠ k) : bump votes k = votes ++ [(k, 1)] := by
  induction votes with
  | nil => rfl
  | cons p rest ih =>
      rcases p with ⟨k', c⟩
      have hk' : k' ≠ k := h (k', c) (List.mem_cons_self _ _)
      simp only [bump, if_neg hk', List.cons_append]
      rw [ih (fun q hq => h q (List.mem_cons_of_mem _ hq))]

theorem bump_split (votes : List (VoteKey × Nat)) (k : VoteKey) :
    (∀ p ∈ votes, p.1 ≠ k) ∨
    ∃ l1 c l2, votes = l1 ++ (k, c) :: l2 ∧ (∀ p ∈ l1, p.1 ≠ k) ∧
      bump votes k = l1 ++ (k, c + 1) :: l2 := by
  induction votes with
  | nil => exact Or.inl (by simp)
  | cons p rest ih =>
      rcases p with ⟨k', c'⟩
      by_cases hk : k' = k
      · subst hk
        exact Or.inr ⟨[], c', rest, by simp, by simp, by simp [bump]⟩
      · rcases ih with hfresh | ⟨l1, c, l2, hv, hl1, hb⟩
        · refine Or.inl ?_
          intro q hq
          rcases List.mem_cons.mp hq with rfl | hq'
          · exact hk
          · exact hfresh q hq'
        · refine Or.inr ⟨(k', c') :: l1, c, l2, by rw [hv]; rfl, ?_, ?_⟩
          · intro q hq
            rcases List.mem_cons.mp hq with rfl | hq'
            · exact hk
            · exact hl1 q hq'
          · simp only [bump, if_neg hk, List.cons_append]
            rw [hb]

theorem firstIdx_lt_length {seen : List VoteKey} {k : VoteKey} (h : k ∈ seen) :
    firstIdx seen k < seen.length := by
  induction seen with
  | nil => simp at h
  | cons x xs ih =>
      simp only [firstIdx]
      split_ifs with hx
      · simp
      · have hk : k ∈ xs := by
          rcases List.mem_cons.mp h with rfl | h'
          · exact absurd rfl hx
          · exact h'
        simpa using Nat.succ_lt_succ (ih hk)

theorem firstIdx_append_of_mem {seen : List VoteKey} {k : VoteKey}
    (h : k ∈ seen) (l : List VoteKey) :
    firstIdx (seen ++ l) k = firstIdx seen k := by
  induction seen with
  | nil => simp at h
  | cons x xs ih =>
      simp only [List.cons_append, firstIdx, List.append_eq]
      split_ifs with hx
      · rfl
      · have hk : k ∈ xs := by
          rcases List.mem_cons.mp h with rfl | h'
          · exact absurd rfl hx
          · exact h'
        rw [ih hk]

theorem firstIdx_append_self {seen : List VoteKey} {k : VoteKey} (h : k ∉ seen) :
    firstIdx (seen ++ [k]) k = seen.length := by
  induction seen with
  | nil => simp [firstIdx]
  | cons x xs ih =>
      have hx : x ≠ k := fun he => h (by rw [he]; exact List.mem_cons_self _ _)
      simp only [List.cons_append, firstIdx, if_neg hx, List.append_eq]
      rw [ih (fun hk => h (List.mem_cons_of_mem _ hk))]
      simp

theorem countKey_append (seen : List VoteKey) (x k : VoteKey) :
    countKey (seen ++ [x]) k = countKey seen k + (if x = k then 1 else 0) := by
  induction seen with
  | nil => simp [countKey]
  | cons y ys ih =>
      simp only [List.cons_append, countKey, List.append_eq, ih]
      omega

theorem countKey_zero_of_not_mem {seen : List VoteKey} {k : VoteKey} (h : k ∉ seen) :
    countKey seen k = 0 := by
  induction seen with
  | nil => rfl
  | cons x xs ih =>
      have hx : x ≠ k := fun he => h (by rw [he]; exact List.mem_cons_self _ _)
      simp only [countKey, if_neg hx, ih (fun hk => h (List.mem_cons_of_mem _ hk))]

theorem mem_of_countKey_pos {seen : List VoteKey} {k : VoteKey}
    (h : 0 < countKey seen k) : k ∈ seen := by
  by_contra hk
  rw [countKey_zero_of_not_mem hk] at h
  exact absurd h (by simp)



theorem TallyInv_step {seen : List VoteKey} {votes : List (VoteKey × Nat)} {x : VoteKey}
    (inv : TallyInv seen votes) : TallyInv (seen ++ [x]) (bump votes x) := by
  obtain ⟨hcount, hcomp, hpw⟩ := inv
  rcases bump_split votes x with hfresh | ⟨l1, c, l2, hv, hl1, hb⟩
  · have hxseen : x ∉ seen := by
      intro hx
      obtain ⟨p, hp, hpk⟩ := hcomp x hx
      exact hfresh p hp hpk
    rw [bump_not_mem hfresh]
    refine ⟨?_, ?_, ?_⟩
    · intro p hp
      rcases List.mem_append.mp hp with hp' | hp'
      · obtain ⟨hc, hm⟩ := hcount p hp'
        have hne : x ≠ p.1 := fun he => hxseen (he ▸ hm)
        refine ⟨?_, List.mem_append_left _ hm⟩
        rw [countKey_append, if_neg hne, Nat.add_zero]
        exact hc
      · simp only [List.mem_singleton] at hp'
        rw [hp']
        refine ⟨?_, List.mem_append_right _ (by simp)⟩
        simp [countKey_append, countKey_zero_of_not_mem hxseen]
    · intro k hk
      rcases List.mem_append.mp hk with hk' | hk'
      · obtain ⟨p, hp, hpk⟩ := hcomp k hk'
        exact ⟨p, List.mem_append_left _ hp, hpk⟩
      · simp only [List.mem_singleton] at hk'
        exact ⟨(x, 1), List.mem_append_right _ (by simp), by simp [hk']⟩
    · rw [List.map_append, List.pairwise_append]
      refine ⟨?_, by simp, ?_⟩
      · refine hpw.imp_of_mem ?_
        intro a b ha hb hr
        have hma : a ∈ seen := by
          obtain ⟨p, hp, rfl⟩ := List.mem_map.mp ha
          exact (hcount p hp).2
        have hmb : b ∈ seen := by
          obtain ⟨p, hp, rfl⟩ := List.mem_map.mp hb
          exact (hcount p hp).2
        rw [firstIdx_append_of_mem hma, firstIdx_append_of_mem hmb]
        exact hr
      · intro a ha b hb
        simp only [List.map_cons, List.map_nil, List.mem_singleton] at hb
        subst hb
        have hma : a ∈ seen := by
          obtain ⟨p, hp, rfl⟩ := List.mem_map.mp ha
          exact (hcount p hp).2
        rw [firstIdx_append_of_mem hma, firstIdx_append_self hxseen]
        exact firstIdx_lt_length hma
  · have hxc : (x, c) ∈ votes := by
      rw [hv]; exact List.mem_append_right _ (List.mem_cons_self _ _)
    have hxseen : x ∈ seen := (hcount (x, c) hxc).2
    have hkeys : votes.map Prod.fst = l1.map Prod.fst ++ x :: l2.map Prod.fst := by
      rw [hv]; simp
    have hl2 : ∀ p ∈ l2, p.1 ≠ x := by
      intro p hp he
      have hpw' := hpw
      rw [hkeys, List.pairwise_append] at hpw'
      have h2 := hpw'.2.1
      rw [List.pairwise_cons] at h2
      have := h2.1 p.1 (List.mem_map_of_mem _ hp)
      rw [he] at this
      omega
    rw [hb]
    have hkeys' : (l1 ++ (x, c + 1) :: l2).map Prod.fst = votes.map Prod.fst := by
      rw [hkeys]; simp
    refine ⟨?_, ?_, ?_⟩
    · intro p hp
      rcases List.mem_append.mp hp with hp' | hp'
      · have hpv : p ∈ votes := by rw [hv]; exact List.mem_append_left _ hp'
        obtain ⟨hc, hm⟩ := hcount p hpv
        have hne : x ≠ p.1 := fun he => (hl1 p hp') he.symm
        refine ⟨?_, List.mem_append_left _ hm⟩
        rw [countKey_append, if_neg hne, Nat.add_zero]
        exact hc
      · rcases List.mem_cons.mp hp' with rfl | hp''
        · have hc := (hcount (x, c) hxc).1
          refine ⟨?_, List.mem_append_left _ hxseen⟩
          show c + 1 = countKey (seen ++ [x]) x
          rw [countKey_append, if_pos rfl]
          have hc' : c = countKey seen x := hc
          omega
        · have hpv : p ∈ votes := by
            rw [hv]; exact List.mem_append_right _ (List.mem_cons_of_mem _ hp'')
          obtain ⟨hc, hm⟩ := hcount p hpv
          have hne : x ≠ p.1 := fun he => (hl2 p hp'') he.symm
          refine ⟨?_, List.mem_append_left _ hm⟩
          rw [countKey_append, if_neg hne, Nat.add_zero]
          exact hc
    · intro k hk
      have hkseen : k ∈ seen := by
        rcases List.mem_append.mp hk with hk' | hk'
        · exact hk'
        · simp only [List.mem_singleton] at hk'
          rw [hk']
          exact hxseen
      obtain ⟨p, hp, hpk⟩ := hcomp k hkseen
      rw [hv] at hp
      rcases List.mem_append.mp hp with hp' | hp'
      · exact ⟨p, List.mem_append_left _ hp', hpk⟩
      · rcases List.mem_cons.mp hp' with rfl | hp''
        · exact ⟨(x, c + 1), List.mem_append_right _ (List.mem_cons_self _ _), hpk⟩
        · exact ⟨p, List.mem_append_right _ (List.mem_cons_of_mem _ hp''), hpk⟩
    · rw [hkeys']
      refine hpw.imp_of_mem ?_
      intro a b ha hb hr
      have hma : a ∈ seen := by
        obtain ⟨p, hp, rfl⟩ := List.mem_map.mp ha
        exact (hcount p hp).2
      have hmb : b ∈ seen := by
        obtain ⟨p, hp, rfl⟩ := List.mem_map.mp hb
        exact (hcount p hp).2
      rw [firstIdx_append_of_mem hma, firstIdx_append_of_mem hmb]
      exact hr



theorem countKey_pos_of_mem {seen : List VoteKey} {k : VoteKey} (h : k ∈ seen) :
    0 < countKey seen k := by
  induction seen with
  | nil => simp at h
  | cons x xs ih =>
      simp only [countKey]
      by_cases hx : x = k
      · simp [hx]
      · have hk : k ∈ xs := by
          rcases List.mem_cons.mp h with rfl | h'
          · exact absurd rfl hx
          · exact h'
        have := ih hk
        omega

theorem TallyInv_foldl : ∀ (l seen : List VoteKey) (votes : List (VoteKey × Nat)),
    TallyInv seen votes → TallyInv (seen ++ l) (l.foldl bump votes) := by
  intro l
  induction l with
  | nil => intro seen votes h; simpa using h
  | cons x xs ih =>
      intro seen votes h
      have h2 := ih (seen ++ [x]) (bump votes x) (TallyInv_step h)
      simpa [List.append_assoc] using h2

theorem TallyInv_castVotes (Q : List FP) (db : Database) :
    TallyInv (voteList Q db) (castVotes Q db) := by
  have h := TallyInv_foldl (voteList Q db) [] [] ⟨by simp, by simp, by simp⟩
  simpa [castVotes] using h

theorem foldl_maxVoteStep (xs : List (VoteKey × Nat)) (x : VoteKey × Nat) :
    ∃ l1 l2, x :: xs = l1 ++ (xs.foldl maxVoteStep x) :: l2 ∧
      (∀ p ∈ l1, p.2 < (xs.foldl maxVoteStep x).2) ∧
      (∀ p ∈ x :: xs, p.2 ≤ (xs.foldl maxVoteStep x).2) := by
  induction xs generalizing x with
  | nil => exact ⟨[], [], rfl, by simp, by simp⟩
  | cons y ys ih =>
      simp only [List.foldl_cons]
      by_cases hxy : x.2 < y.2
      · have hstep : maxVoteStep x y = y := by simp [maxVoteStep, hxy]
        rw [hstep]
        obtain ⟨l1, l2, heq, hlt, hle⟩ := ih y
        have hymax := hle y (List.mem_cons_self _ _)
        refine ⟨x :: l1, l2, ?_, ?_, ?_⟩
        · rw [List.cons_append, ← heq]
        · intro p hp
          rcases List.mem_cons.mp hp with rfl | hp'
          · omega
          · exact hlt p hp'
        · intro p hp
          rcases List.mem_cons.mp hp with rfl | hp'
          · omega
          · exact hle p hp'
      · have hstep : maxVoteStep x y = x := by simp [maxVoteStep, hxy]
        rw [hstep]
        obtain ⟨l1, l2, heq, hlt, hle⟩ := ih x
        have hxmax := hle x (List.mem_cons_self _ _)
        rcases l1 with _ | ⟨a, l1'⟩
        · simp only [List.nil_append] at heq
          injection heq with hbx hl2
          refine ⟨[], y :: ys, ?_, by simp, ?_⟩
          · rw [List.nil_append, ← hbx]
          · intro p hp
            rcases List.mem_cons.mp hp with rfl | hp'
            · exact hxmax
            · rcases List.mem_cons.mp hp' with rfl | hp''
              · omega
              · exact hle p (List.mem_cons_of_mem _ hp'')
        · simp only [List.cons_append] at heq
          injection heq with hax hys
          refine ⟨x :: y :: l1', l2, ?_, ?_, ?_⟩
          · rw [List.cons_append, List.cons_append, ← hys]
          · intro p hp
            rcases List.mem_cons.mp hp with rfl | hp'
            · refine hlt p ?_
              rw [← hax]
              exact List.mem_cons_self _ _
            · rcases List.mem_cons.mp hp' with rfl | hp''
              · have hxl : x ∈ a :: l1' := by
                  rw [← hax]
                  exact List.mem_cons_self _ _
                have := hlt x hxl
                omega
              · exact hlt p (List.mem_cons_of_mem _ hp'')
          · intro p hp
            rcases List.mem_cons.mp hp with rfl | hp'
            · exact hxmax
            · rcases List.mem_cons.mp hp' with rfl | hp''
              · omega
              · exact hle p (List.mem_cons_of_mem _ hp'')



theorem voteList_nil_of_no_keys {Q : List FP} {db : Database}
    (h : ∀ fp ∈ Q, dbLookup db (hashKey fp) = none) : voteList Q db = [] := by
  induction Q with
  | nil => rfl
  | cons fp rest ih =>
      simp only [voteList]
      rw [show entryVotes db fp = [] from by
        simp [entryVotes, h fp (List.mem_cons_self _ _)]]
      simpa using ih (fun fp' h' => h fp' (List.mem_cons_of_mem _ h'))

/-! ## Claim theorems -/

/-- C1: `query_multi_song` returns `(None, None, 0)` when no query
fingerprint's hash key is present in `db` (in particular for an empty
query or an empty database, where no votes are cast); otherwise it
returns the `(song_name, offset)` pair with the maximum vote count,
where each matching entry `(song_name, t_db)` under a query
fingerprint's key contributes one vote to `(song_name, t_db - t_query)`,
the returned score is the winning pair's vote count, and ties on equal
vote counts are broken in favour of the pair whose first vote came
first. -/
theorem query_multi_song_spec (Q : List FP) (db : Database) :
    ((∀ fp ∈ Q, dbLookup db (hashKey fp) = none) →
        query_multi_song Q db = (none, none, 0)) ∧
    (voteList Q db = [] → query_multi_song Q db = (none, none, 0)) ∧
    (voteList Q db ≠ [] →
      ∃ s o, query_multi_song Q db = (some s, some o, countKey (voteList Q db) (s, o)) ∧
        (∀ k, countKey (voteList Q db) k ≤ countKey (voteList Q db) (s, o)) ∧
        (∀ k, countKey (voteList Q db) k = countKey (voteList Q db) (s, o) →
          firstIdx (voteList Q db) (s, o) ≤ firstIdx (voteList Q db) k)) := by
  have hnil : voteList Q db = [] → query_multi_song Q db = (none, none, 0) := by
    intro h
    unfold query_multi_song castVotes
    rw [h]
    rfl
  refine ⟨fun h => hnil (voteList_nil_of_no_keys h), hnil, ?_⟩
  intro hne
  obtain ⟨hcount, hcomp, hpw⟩ := TallyInv_castVotes Q db
  rcases hc : castVotes Q db with _ | ⟨v, vs⟩
  · exfalso
    rcases hl : voteList Q db with _ | ⟨k, ks⟩
    · exact hne hl
    · obtain ⟨p, hp, -⟩ := hcomp k (by rw [hl]; exact List.mem_cons_self _ _)
      rw [hc] at hp
      simp at hp
  · rw [hc] at hcount hcomp hpw
    have hquery : query_multi_song Q db
        = (some (vs.foldl maxVoteStep v).1.1, some (vs.foldl maxVoteStep v).1.2,
           (vs.foldl maxVoteStep v).2) := by
      unfold query_multi_song
      rw [hc]
    obtain ⟨l1, l2, heq, hlt, hle⟩ := foldl_maxVoteStep vs v
    have hbmem : vs.foldl maxVoteStep v ∈ v :: vs := by
      rw [heq]
      exact List.mem_append_right _ (List.mem_cons_self _ _)
    obtain ⟨hbc, hbseen⟩ := hcount _ hbmem
    have hbkey : ((vs.foldl maxVoteStep v).1.1, (vs.foldl maxVoteStep v).1.2)
        = (vs.foldl maxVoteStep v).1 := rfl
    refine ⟨(vs.foldl maxVoteStep v).1.1, (vs.foldl maxVoteStep v).1.2, ?_, ?_, ?_⟩
    · rw [hquery, hbkey, ← hbc]
    · intro k
      rw [hbkey, ← hbc]
      by_cases hk : k ∈ voteList Q db
      · obtain ⟨p, hp, hpk⟩ := hcomp k hk
        have hpc := (hcount p hp).1
        have hple : p.2 ≤ (vs.foldl maxVoteStep v).2 := hle p hp
        rw [← hpk, ← hpc]
        exact hple
      · rw [countKey_zero_of_not_mem hk]
        exact Nat.zero_le _
    · intro k hkc
      rw [hbkey] at hkc
      rw [hbkey]
      -- the winning count is positive, so k received votes
      have hbpos : 0 < countKey (voteList Q db) (vs.foldl maxVoteStep v).1 :=
        countKey_pos_of_mem hbseen
      have hkpos : 0 < countKey (voteList Q db) k := by rw [hkc]; exact hbpos
      have hkmem : k ∈ voteList Q db := mem_of_countKey_pos hkpos
      obtain ⟨p, hp, hpk⟩ := hcomp k hkmem
      have hpc := (hcount p hp).1
      have hpcnt : p.2 = (vs.foldl maxVoteStep v).2 := by
        rw [hpc, hpk, hkc, ← hbc]
      rw [heq] at hp
      rcases List.mem_append.mp hp with hp1 | hp2
      · exact absurd hpcnt (by have := hlt p hp1; omega)
      · rcases List.mem_cons.mp hp2 with rfl | hp3
        · rw [hpk]
        · -- p is after the winner in the vote dictionary
          rw [heq, List.map_append, List.map_cons, List.pairwise_append] at hpw
          have h2 := hpw.2.1
          rw [List.pairwise_cons] at h2
          have := h2.1 p.1 (List.mem_map_of_mem _ hp3)
          rw [hpk] at this
          omega



/-- Witness for C1: the empty query over the empty database yields
`(None, None, 0)`, and a query with one fingerprint matching a
three-entry bucket yields a real match. -/
theorem query_multi_song_spec_witness :
    query_multi_song [] [] = (none, none, 0) ∧
    query_multi_song [(1, 2, 3, 4)] [((1, 2, 3), [("A", 10), ("B", 10), ("A", 10)])]
      ≠ (none, none, 0) := by
  constructor
  · exact (query_multi_song_spec [] []).1 (by simp)
  · obtain ⟨s, o, heq, -, -⟩ :=
      (query_multi_song_spec [(1, 2, 3, 4)]
        [((1, 2, 3), [("A", 10), ("B", 10), ("A", 10)])]).2.2 (by decide)
    rw [heq]
    simp

/-- C2: for every input mask and configuration with `dt_min >= 0` and
`dt_max_seconds > 0`, every fingerprint `(f1, f2, dt, t1)` returned by
`extract_fingerprints` satisfies `DT_MIN <= dt <= DT_MAX`, where
`DT_MAX = floor(dt_max_seconds * sr / hop_length)` and
`hop_length = n_fft // hop_ratio` (`dtMaxFrames`); consequently every
hash key stored in the database built from these fingerprints has its
`dt` within the same bounds. -/
theorem extract_fingerprints_dt_bounds (sr n_fft hop_ratio fanout : Nat)
    (dt_min : Int) (q : ℚ) (mask : List (List Bool)) (song : String)
    (_h1 : 0 ≤ dt_min) (_h2 : 0 < q) :
    (∀ fp ∈ extractFingerprintsFromPeaks sr n_fft hop_ratio fanout dt_min q mask,
       dt_min ≤ fp.2.2.1 ∧ fp.2.2.1 ≤ dtMaxFrames sr n_fft hop_ratio q) ∧
    (∀ k es, dbLookup (build_song_database
        [(song, extractFingerprintsFromPeaks sr n_fft hop_ratio fanout dt_min q mask)]).1 k
        = some es →
       dt_min ≤ k.2.2 ∧ k.2.2 ≤ dtMaxFrames sr n_fft hop_ratio q) := by
  constructor
  · intro fp hfp
    exact generateFingerprints_mem hfp
  · intro k es hk
    have hdb : (build_song_database
        [(song, extractFingerprintsFromPeaks sr n_fft hop_ratio fanout dt_min q mask)]).1
        = addSongFps [] song
            (extractFingerprintsFromPeaks sr n_fft hop_ratio fanout dt_min q mask) := rfl
    rw [hdb] at hk
    rcases addSongFps_keys hk with ⟨es', hes'⟩ | ⟨fp, hfp, hkey⟩
    · simp [dbLookup] at hes'
    · have hb := generateFingerprints_mem hfp
      rw [← hkey]
      exact hb

/-- Witness for C2 at `sr = 4`, `n_fft = 2`, `hop_ratio = 1`,
`fanout = 3`, `dt_min = 0`, `dt_max_seconds = 1` and a 2x3 peak mask:
the fingerprint `(0, 0, 1, 0)` is produced and its `dt = 1` lies within
`[0, DT_MAX]`. -/
theorem extract_fingerprints_dt_bounds_witness :
    (0 : Int) ≤ 0 ∧ (0 : ℚ) < 1 ∧
    ((0 : Int) ≤ ((0 : Int), (0 : Int), (1 : Int), (0 : Int)).2.2.1 ∧
      ((0 : Int), (0 : Int), (1 : Int), (0 : Int)).2.2.1 ≤ dtMaxFrames 4 2 1 1) := by
  have hdt : dtMaxFrames 4 2 1 1 = 2 := by
    rw [dtMaxFrames]
    norm_num
    rw [show ((2:ℚ)) = ((2:ℤ):ℚ) by norm_num, Rat.floor_def']
    simp
  have hmem : ((0 : Int), (0 : Int), (1 : Int), (0 : Int))
      ∈ extractFingerprintsFromPeaks 4 2 1 3 0 1 [[true, true], [false, true]] := by
    rw [extractFingerprintsFromPeaks, hdt]
    decide
  exact ⟨le_refl 0, by norm_num,
    (extract_fingerprints_dt_bounds 4 2 1 3 0 1 [[true, true], [false, true]] "A"
      (by norm_num) (by norm_num)).1 _ hmem⟩

/-- C3: for every input mask and every `fanout >= 1`, the fingerprint
list decomposes into one block per peak-list entry, the block of the
`i`-th entry has at most `fanout` elements, and every fingerprint of
block `i` carries the `i`-th entry's frequency and time as its anchor. -/
theorem extract_fingerprints_fanout_bound (sr n_fft hop_ratio fanout : Nat)
    (dt_min : Int) (q : ℚ) (mask : List (List Bool)) (h : 1 ≤ fanout) :
    extractFingerprintsFromPeaks sr n_fft hop_ratio fanout dt_min q mask
      = (List.range (sortPeaks (peakCoords mask)).length).flatMap
          (anchorBlock dt_min (dtMaxFrames sr n_fft hop_ratio q) fanout
            (sortPeaks (peakCoords mask))) ∧
    (∀ i, (anchorBlock dt_min (dtMaxFrames sr n_fft hop_ratio q) fanout
        (sortPeaks (peakCoords mask)) i).length ≤ fanout) ∧
    (∀ (i t1 f1 : Nat), (sortPeaks (peakCoords mask))[i]? = some (t1, f1) →
      ∀ fp ∈ anchorBlock dt_min (dtMaxFrames sr n_fft hop_ratio q) fanout
          (sortPeaks (peakCoords mask)) i,
        fp.1 = (f1 : Int) ∧ fp.2.2.2 = (t1 : Int)) := by
  refine ⟨generateFingerprints_eq_flatMap _ _ _ _,
    fun i => anchorBlock_length_le h i, ?_⟩
  intro i t1 f1 hget fp hfp
  exact anchorBlock_anchor hget fp hfp

/-- Witness for C3 at `fanout = 1` and a 2x3 peak mask: the block of the
first anchor has at most one fingerprint. -/
theorem extract_fingerprints_fanout_bound_witness :
    1 ≤ 1 ∧
    (anchorBlock 0 (dtMaxFrames 4 2 1 1) 1
      (sortPeaks (peakCoords [[true, true], [false, true]])) 0).length ≤ 1 :=
  ⟨le_refl 1,
   (extract_fingerprints_fanout_bound 4 2 1 1 0 1 [[true, true], [false, true]]
     (by norm_num)).2.1 0⟩

/-- C4: the peak list built by `extract_fingerprints` before pairing
(the coordinates of the boolean peak mask in `np.where` order, stably
sorted by time) has consecutive entries `(t_a, f_a), (t_b, f_b)` with
either `t_a < t_b`, or `t_a = t_b` and `f_a <= f_b`. -/
theorem peak_list_sorted_time_freq (mask : List (List Bool)) :
    (sortPeaks (peakCoords mask)).Chain'
      (fun a b => a.1 < b.1 ∨ (a.1 = b.1 ∧ a.2 ≤ b.2)) := by
  have h1 := sortPeaks_pairwise_le (peakCoords mask)
  have h2 : (sortPeaks (peakCoords mask)).Pairwise
      (fun a b => a.1 = b.1 → a.2 ≤ b.2) := by
    refine sortPeaks_pairwise_stable ?_
    refine (peakCoordsAux_pairwise_snd).imp ?_
    intro a b hab heq
    exact hab
  refine List.Pairwise.chain' ?_
  refine (h1.and h2).imp ?_
  rintro a b ⟨hle, hP⟩
  rcases Nat.lt_or_ge a.1 b.1 with hlt | hge
  · exact Or.inl hlt
  · have heq : a.1 = b.1 := by omega
    exact Or.inr ⟨heq, hP heq⟩

/-- C5: `confidence_label(score)` returns `"No match"` iff `score < 200`,
`"Low confidence"` iff `200 <= score < 1000`, `"Medium confidence"` iff
`1000 <= score < 3000`, `"High confidence"` iff `score >= 3000`, and
`interpret_match` reports `matched = true` exactly when the label is not
`"No match"` and both `song_name` and `best_offset` are present. -/
theorem confidence_label_interpret_match_spec (score : Int) (song : Option String)
    (off : Option Int) (hop sr : Int) :
    (confidence_label score = "No match" ↔ score < 200) ∧
    (confidence_label score = "Low confidence" ↔ 200 ≤ score ∧ score < 1000) ∧
    (confidence_label score = "Medium confidence" ↔ 1000 ≤ score ∧ score < 3000) ∧
    (confidence_label score = "High confidence" ↔ 3000 ≤ score) ∧
    ((interpret_match song off score hop sr).matched = true ↔
      (confidence_label score ≠ "No match" ∧ song ≠ none ∧ off ≠ none)) := by
  have hlabel : (confidence_label score = "No match" ↔ score < 200) ∧
      (confidence_label score = "Low confidence" ↔ 200 ≤ score ∧ score < 1000) ∧
      (confidence_label score = "Medium confidence" ↔ 1000 ≤ score ∧ score < 3000) ∧
      (confidence_label score = "High confidence" ↔ 3000 ≤ score) := by
    unfold confidence_label
    split_ifs with h1 h2 h3 <;> refine ⟨?_, ?_, ?_, ?_⟩ <;> simp <;> omega
  refine ⟨hlabel.1, hlabel.2.1, hlabel.2.2.1, hlabel.2.2.2, ?_⟩
  rcases song with _ | s <;> rcases off with _ | o <;> unfold interpret_match <;> simp
  split_ifs with h <;> simp [h]

/-- C10: when control reaches the return statement of
`extract_fingerprints_with_snr_info`, the name `snr_db_actual` read by
the return expression is not among the bound local names (the function
computed `snr_db` instead), so evaluating the return expression raises
`NameError` and the function can never return normally. -/
theorem snr_info_unbound_name :
    snrInfoReturnEval = .error "NameError: name 'snr_db_actual' is not defined" ∧
    "snr_db_actual" ∉ snrInfoBoundNames ∧ "snr_db" ∈ snrInfoBoundNames :=
  ⟨rfl, by decide, by decide⟩

/-- C6 (code behaviour at the failing input): ingesting the same song
name twice is not rejected — `add_song` appends the new `(song, t1)`
entries to the existing hash buckets, duplicating the entries for the
song, and silently overwrites its metadata.  No `AlreadyExistsError`
exists anywhere in the code. -/
theorem add_song_duplicate_no_rejection :
    (add_song_update (add_song_update emptyServiceState "A" [(1,2,3,4)] 5) "A"
        [(1,2,3,4)] 5).db
      = [((1,2,3), [("A",4), ("A",4)])] ∧
    (add_song_update (add_song_update emptyServiceState "A" [(1,2,3,4)] 5) "A"
        [(1,2,3,4)] 5).metadata
      = [("A", { num_fingerprints := 1, duration_seconds := some 5 })] :=
  ⟨rfl, rfl⟩

/-- C7 (code behaviour at the failing input): the saved payload carries
no version tag and no configuration, and `load_database` installs the
snapshot's data and returns `True` for every pair of service states —
in particular when the loading facade's configuration differs from the
one the snapshot was saved under.  No `SnapshotIncompatibleError` is
ever raised. -/
theorem load_database_ignores_version_config (stA stB : ServiceState) :
    (load_database stB (save_database stA)).2 = true ∧
    (load_database stB (save_database stA)).1.db = stA.db ∧
    (load_database stB (save_database stA)).1.metadata = stA.metadata ∧
    (load_database stB (save_database stA)).1.config = stB.config :=
  ⟨rfl, rfl, rfl, rfl⟩

/-- C8 (code behaviour at the failing input): when any step of the
recognition pipeline raises, `recognize_audio` swallows the exception
and returns a sentinel `matched = false` dictionary that lacks the
`raw_score` key, while the legitimate non-match produced by
`interpret_match` always carries `raw_score`. -/
theorem recognize_audio_swallows_errors (e : String) (hop sr : Int) :
    (recognize_audio_service (.error e) hop sr).matched = false ∧
    (recognize_audio_service (.error e) hop sr).raw_score = none ∧
    (recognize_audio_service (.error e) hop sr).message
      = some ("Error during recognition: " ++ e) ∧
    ∀ s o c, (recognize_audio_service (.ok (s, o, c)) hop sr).raw_score = some c := by
  refine ⟨rfl, rfl, rfl, fun s o c => ?_⟩
  rcases s with _ | s <;> rcases o with _ | o
  · rfl
  · rfl
  · rfl
  · simp only [recognize_audio_service, interpret_match]
    split_ifs <;> rfl

/-- C9 counterexample: `validate_config` accepts `badConfig` even though
its `hop_ratio` does not divide `n_fft`, its `freq_neighborhood` is
below 1, and its `num_bands` exceeds `n_fft / 2` — so it does not reject
every configuration violating the table's constraints. -/
theorem validate_config_missing_checks_cex :
    validate_config badConfig = .ok true ∧
    ¬ (badConfig.hop_ratio ∣ badConfig.n_fft) ∧
    badConfig.freq_neighborhood < 1 ∧
    (badConfig.n_fft / 2 : Int) < badConfig.num_bands :=
  ⟨rfl, by decide, by decide, by decide⟩

/-- C9 (amended): `validate_config` accepts a configuration exactly when
`sr > 0`, `n_fft` is a positive power of two, `hop_ratio > 0`,
`num_bands >= 1`, `fanout >= 1`, `dt_min >= 0` and `dt_max_seconds > 0`
(and every required key is present), raising `ValueError` otherwise; it
does not check that `hop_ratio` divides `n_fft`, that `num_bands` is at
most `n_fft / 2`, or that the neighbourhood sizes are at least 1. -/
theorem validate_config_ok_iff (c : Config) :
    validate_config c = .ok true ↔
      (0 < c.sr ∧ (∃ k : ℕ, c.n_fft = 2 ^ k) ∧ 0 < c.hop_ratio ∧ 0 < c.num_bands ∧
       0 < c.fanout ∧ 0 ≤ c.dt_min ∧ 0 < c.dt_max_seconds) := by
  have hpow : (¬ (c.n_fft ≤ 0 ∨ c.n_fft.toNat &&& (c.n_fft.toNat - 1) ≠ 0)) ↔
      ∃ k : ℕ, c.n_fft = 2 ^ k := by
    constructor
    · intro h
      push_neg at h
      obtain ⟨hpos, hland⟩ := h
      obtain ⟨k, hk⟩ := (land_pred_eq_zero_iff (m := c.n_fft.toNat) (by omega)).mp hland
      refine ⟨k, ?_⟩
      have hnn := Int.toNat_of_nonneg (by omega : (0 : Int) ≤ c.n_fft)
      rw [← hnn, hk]
      push_cast
      ring
    · rintro ⟨k, hk⟩
      have hpos : (0 : Int) < c.n_fft := by rw [hk]; positivity
      have htn : c.n_fft.toNat = 2 ^ k := by
        have hcast : c.n_fft = ((2 ^ k : ℕ) : Int) := by rw [hk]; push_cast; ring
        rw [hcast, Int.toNat_natCast]
      push_neg
      refine ⟨by omega, ?_⟩
      rw [htn]
      exact (land_pred_eq_zero_iff (by positivity)).mpr ⟨k, rfl⟩
  unfold validate_config
  split_ifs with h1 h2 h3 h4 h5 h6 h7
  · exact iff_of_false (by simp) (by rintro ⟨hsr, -⟩; omega)
  · exact iff_of_false (by simp) (by rintro ⟨-, hp, -⟩; exact (hpow.mpr hp) h2)
  · exact iff_of_false (by simp) (by rintro ⟨-, -, hh, -⟩; omega)
  · exact iff_of_false (by simp) (by rintro ⟨-, -, -, hb, -⟩; omega)
  · exact iff_of_false (by simp) (by rintro ⟨-, -, -, -, hf, -⟩; omega)
  · exact iff_of_false (by simp) (by rintro ⟨-, -, -, -, -, hd, -⟩; omega)
  · exact iff_of_false (by simp)
      (by rintro ⟨-, -, -, -, -, -, hq⟩; exact absurd h7 (not_le.mpr hq))
  · exact iff_of_true rfl
      ⟨by omega, hpow.mp h2, by omega, by omega, by omega, by omega, not_le.mp h7⟩

end Shazam
